import Mathlib

/-!
Verification of the shatter content scanner (damus-io/shatter).

The shattering engine itself is `src/shard.rs` and is embedded below byte for
byte at the level of its control flow.  The cursor module it consumes
(`crate::parser`: `Parser`, `Bound`, `Error`) is not part of the provided
sources, so those primitives are modelled from the specification, section 4.1;
each such definition carries a doc comment saying so.  Buffers are lists of
byte values (Nat below 256), positions are Nat.
-/

namespace Shatter

/-- Modelled from the spec: direction tag of an out-of-bounds cursor error
(the Bound enum of the missing parser module). -/
inductive Bound where
  | atStart
  | atEnd
deriving DecidableEq, Repr

/-- Modelled from the spec: the cursor error taxonomy of the missing parser
module: out of bounds at either end, or an expected byte not present. -/
inductive Err where
  | outOfBounds (b : Bound)
  | notFound
deriving DecidableEq, Repr

/-- Modelled from the spec: the Cursor (Rust Parser of the missing parser
module): an immutable byte buffer together with a read position. -/
structure Parser where
  data : List Nat
  pos : Nat
deriving DecidableEq, Repr

/-- ASCII whitespace bytes, as Rust char.is_ascii_whitespace: space, tab,
line feed, form feed, carriage return. -/
def is_ascii_whitespace (c : Nat) : Bool :=
  decide (c = 32 ∨ c = 9 ∨ c = 10 ∨ c = 12 ∨ c = 13)

/-- ASCII punctuation bytes, as Rust char.is_ascii_punctuation. -/
def is_ascii_punctuation (c : Nat) : Bool :=
  decide ((33 ≤ c ∧ c ≤ 47) ∨ (58 ≤ c ∧ c ≤ 64) ∨ (91 ≤ c ∧ c ≤ 96) ∨ (123 ≤ c ∧ c ≤ 126))

/-- From shard.rs: is_boundary_char. -/
def is_boundary_char (c : Nat) : Bool :=
  is_ascii_whitespace c || is_ascii_punctuation c

/-- From shard.rs: is_left_boundary_char: a boundary char, or the high bit set. -/
def is_left_boundary_char (c : Nat) : Bool :=
  is_boundary_char c || (c &&& 128 == 128)

/-- From shard.rs: is_left_boundary over the result of peeking the previous byte. -/
def is_left_boundary : Except Err Nat → Bool
  | Except.error (Err.outOfBounds _) => true
  | Except.error _ => false
  | Except.ok c => is_left_boundary_char c

/-- Modelled from the spec: peek_previous_byte fails with OutOfBounds(Start)
when the position is 0, and otherwise returns the byte immediately before the
cursor. -/
def Parser.peek_prev_byte (p : Parser) : Except Err Nat :=
  if p.pos = 0 then Except.error (Err.outOfBounds Bound.atStart)
  else Except.ok ((p.data.get? (p.pos - 1)).getD 0)

/-- Modelled from the spec: the forward scan behind scan_until, with explicit
fuel (always called with more fuel than bytes left).  It advances one byte at
a time, stops without consuming at the first byte satisfying the predicate,
and reports OutOfBounds(End) when it runs off the end of the buffer. -/
def scan_go (data : List Nat) (pred : Nat → Bool) : Nat → Nat → Nat × Except Err Unit
  | pos, 0 => (pos, Except.error (Err.outOfBounds Bound.atEnd))
  | pos, fuel + 1 =>
    match data.get? pos with
    | none => (pos, Except.error (Err.outOfBounds Bound.atEnd))
    | some b => if pred b then (pos, Except.ok ()) else scan_go data pred (pos + 1) fuel

/-- Modelled from the spec: scan_until(predicate). -/
def Parser.parse_until (p : Parser) (pred : Nat → Bool) : Parser × Except Err Unit :=
  let r := scan_go p.data pred p.pos (p.data.length + 1)
  ({ p with pos := r.1 }, r.2)

/-- Modelled from the spec: match_char: when the byte at the cursor equals the
expected byte, advance past it; otherwise fail with NotFound leaving the
cursor unmoved. -/
def Parser.parse_char (p : Parser) (c : Nat) : Parser × Except Err Unit :=
  match p.data.get? p.pos with
  | some b =>
    if b = c then ({ p with pos := p.pos + 1 }, Except.ok ())
    else (p, Except.error Err.notFound)
  | none => (p, Except.error Err.notFound)

/-- ASCII digit bytes. -/
def is_ascii_digit (c : Nat) : Bool :=
  decide (48 ≤ c ∧ c ≤ 57)

/-- Modelled from the spec: the digit-consuming loop behind parse_ascii_digits,
with explicit fuel; the accumulated value wraps as the reference u16 does. -/
def digits_go (data : List Nat) : Nat → Nat → Nat → Nat × Nat
  | pos, acc, 0 => (pos, acc)
  | pos, acc, fuel + 1 =>
    match data.get? pos with
    | some b =>
      if is_ascii_digit b then digits_go data (pos + 1) ((acc * 10 + (b - 48)) % 65536) fuel
      else (pos, acc)
    | none => (pos, acc)

/-- Modelled from the spec: parse_ascii_digits: fails with NotFound unless the
byte at the cursor is an ASCII digit, otherwise consumes one or more digits
and returns their numeric value as a wrapping 16-bit unsigned integer. -/
def Parser.parse_digits (p : Parser) : Parser × Except Err Nat :=
  match p.data.get? p.pos with
  | some b =>
    if is_ascii_digit b then
      let r := digits_go p.data p.pos 0 (p.data.length + 1)
      ({ p with pos := r.1 }, Except.ok r.2)
    else (p, Except.error Err.notFound)
  | none => (p, Except.error Err.notFound)

/-- From shard.rs: ByteSlice, a span into the original buffer. -/
structure ByteSlice where
  pos : Nat
  len : Nat
deriving DecidableEq, Repr

/-- From shard.rs: ByteSlice.bytes: the referenced bytes of the buffer. -/
def ByteSlice.bytes (bs : ByteSlice) (data : List Nat) : List Nat :=
  (data.take (bs.pos + bs.len)).drop bs.pos

/-- From shard.rs: Mention. -/
inductive Mention where
  | index (n : Nat)
  | bech32 (bs : ByteSlice)
deriving DecidableEq, Repr

/-- From shard.rs: Shard. -/
inductive Shard where
  | text (bs : ByteSlice)
  | mention (m : Mention)
  | hashtag (bs : ByteSlice)
  | url (bs : ByteSlice)
deriving DecidableEq, Repr

/-- Decidable equality for Except results, so concrete runs of parse can be
checked by evaluation. -/
instance {e a : Type} [DecidableEq e] [DecidableEq a] : DecidableEq (Except e a) := fun x y =>
  match x, y with
  | Except.ok u, Except.ok v =>
    if h : u = v then isTrue (by rw [h]) else isFalse (fun hc => h (Except.ok.inj hc))
  | Except.error u, Except.error v =>
    if h : u = v then isTrue (by rw [h]) else isFalse (fun hc => h (Except.error.inj hc))
  | Except.ok _, Except.error _ => isFalse (fun hc => Except.noConfusion hc)
  | Except.error _, Except.ok _ => isFalse (fun hc => Except.noConfusion hc)

/-- From shard.rs: Shards.parse_indexed_mention: expect a literal bracket, one
or more digits, a closing bracket; on any failure restore the cursor to the
entry position. -/
def Shards.parse_indexed_mention (p : Parser) : Parser × Except Err Nat :=
  let start := p.pos
  let r1 := p.parse_char 91
  match r1.2 with
  | Except.error e => ({ r1.1 with pos := start }, Except.error e)
  | Except.ok _ =>
    let r2 := r1.1.parse_digits
    match r2.2 with
    | Except.error e => ({ r2.1 with pos := start }, Except.error e)
    | Except.ok ind =>
      let r3 := r2.1.parse_char 93
      match r3.2 with
      | Except.error e => ({ r3.1 with pos := start }, Except.error e)
      | Except.ok _ => (r3.1, Except.ok ind)

/-- From shard.rs: Shards.parse_hashtag: scan to the first boundary char (end
of buffer also terminates the scan successfully); a would-be empty body fails
with NotFound instead. -/
def Shards.parse_hashtag (p : Parser) : Parser × Except Err ByteSlice :=
  let start := p.pos
  let r := p.parse_until is_boundary_char
  match r.2 with
  | Except.ok _ | Except.error (Err.outOfBounds Bound.atEnd) =>
    if r.1.pos - start = 0 then (r.1, Except.error Err.notFound)
    else (r.1, Except.ok ⟨start, r.1.pos - start⟩)
  | Except.error e => (r.1, Except.error e)

/-- From shard.rs: Shards.push_txt: append a text shard covering the half-open
range from start to upto, eliding it when empty. -/
def Shards.push_txt (shards : List Shard) (start upto : Nat) : List Shard :=
  if upto - start = 0 then shards
  else shards ++ [Shard.text ⟨start, upto - start⟩]

/-- The while loop of Shards.parse from shard.rs, with explicit fuel (parse
always supplies more fuel than bytes, and each iteration advances the cursor
by at least one byte).  State: cursor position, start of the pending text run,
accumulated shards. -/
def Shards.parse_loop (data : List Nat) : Nat → Nat → List Shard → Nat → List Shard × Nat × Nat
  | pos, start, shards, 0 => (shards, start, pos)
  | pos, start, shards, fuel + 1 =>
    match data.get? pos with
    | none => (shards, start, pos)
    | some c1 =>
      let prevb := is_left_boundary (Parser.peek_prev_byte ⟨data, pos⟩)
      if c1 == 35 && prevb then
        let rh := Shards.parse_hashtag ⟨data, pos + 1⟩
        match rh.2 with
        | Except.ok ht =>
          Shards.parse_loop data rh.1.pos rh.1.pos
            (Shards.push_txt shards start pos ++ [Shard.hashtag ht]) fuel
        | Except.error _ =>
          let rm := Shards.parse_indexed_mention rh.1
          match rm.2 with
          | Except.ok ind =>
            Shards.parse_loop data rm.1.pos rm.1.pos
              (Shards.push_txt shards start pos ++ [Shard.mention (Mention.index ind)]) fuel
          | Except.error _ =>
            Shards.parse_loop data rm.1.pos start shards fuel
      else
        Shards.parse_loop data (pos + 1) start shards fuel

/-- From shard.rs: Shards.parse: run the loop from position 0, then flush the
final pending text run. -/
def Shards.parse (content : List Nat) : Except Err (List Shard) :=
  let r := Shards.parse_loop content 0 0 [] (content.length + 1)
  Except.ok (Shards.push_txt r.1 r.2.1 r.2.2)

/-- Bytes the specification attributes to a shard when it resolves the
shard's span against the buffer; an indexed mention carries no span. -/
def Shard.spanBytes (s : Shard) (data : List Nat) : List Nat :=
  match s with
  | Shard.text bs => bs.bytes data
  | Shard.hashtag bs => bs.bytes data
  | Shard.url bs => bs.bytes data
  | Shard.mention (Mention.bech32 bs) => bs.bytes data
  | Shard.mention (Mention.index _) => []

/-- The half-open extent of buffer bytes a shard accounts for: a text span as
is, a hashtag span extended one byte to the left so that it covers the '#'
sigil the recognizer consumed.  Indexed mentions also consumed source bytes,
but the shard value does not record them, so mentions get a dummy extent and
are excluded by hypothesis wherever extents are used. -/
def Shard.extent : Shard → Nat × Nat
  | Shard.text bs => (bs.pos, bs.pos + bs.len)
  | Shard.hashtag bs => (bs.pos - 1, bs.pos + bs.len)
  | Shard.mention _ => (0, 0)
  | Shard.url bs => (bs.pos, bs.pos + bs.len)

/-- The half-open segment of a buffer between two positions. -/
def seg (data : List Nat) (a b : Nat) : List Nat :=
  (data.take b).drop a

/-- The buffer bytes of a shard's extent. -/
def Shard.extentBytes (s : Shard) (data : List Nat) : List Nat :=
  seg data s.extent.1 s.extent.2

/-- The extents of the listed shards tile the half-open range from a to b:
each extent starts exactly where the previous one ended. -/
def tiles : Nat → List Shard → Nat → Bool
  | a, [], b => a == b
  | a, s :: r, b => (s.extent.1 == a) && decide (a ≤ s.extent.2) && tiles s.extent.2 r b

def Shard.isMention : Shard → Bool
  | Shard.mention _ => true
  | _ => false

/-- No shard of the list is a mention. -/
def mentionFree (l : List Shard) : Bool :=
  l.all (fun s => ! s.isMention)

/-- Every ByteSlice contained in a shard. -/
def Shard.slices : Shard → List ByteSlice
  | Shard.text bs => [bs]
  | Shard.hashtag bs => [bs]
  | Shard.url bs => [bs]
  | Shard.mention (Mention.index _) => []
  | Shard.mention (Mention.bech32 bs) => [bs]

/-- ASCII letters and digits. -/
def is_alnum (c : Nat) : Bool :=
  decide ((48 ≤ c ∧ c ≤ 57) ∨ (65 ≤ c ∧ c ≤ 90) ∨ (97 ≤ c ∧ c ≤ 122))

/-- The left-boundary byte classification in the words of the spec: ASCII
whitespace, ASCII punctuation, or any byte with the high bit set. -/
def left_boundary_spec (b : Nat) : Prop :=
  b = 32 ∨ b = 9 ∨ b = 10 ∨ b = 12 ∨ b = 13 ∨
  (33 ≤ b ∧ b ≤ 47) ∨ (58 ≤ b ∧ b ≤ 64) ∨ (91 ≤ b ∧ b ≤ 96) ∨ (123 ≤ b ∧ b ≤ 126) ∨
  128 ≤ b

instance (b : Nat) : Decidable (left_boundary_spec b) := by
  unfold left_boundary_spec
  infer_instance

/-- Structural invariant of every shard the engine emits: spans stay inside
the buffer, text and hashtag bodies are nonempty, a hashtag body is directly
preceded by its '#' sigil, which in turn sits at the buffer start or right
after a left-boundary byte, and neither url nor bech32-mention shards are
ever produced. -/
def shardInv (data : List Nat) : Shard → Prop
  | Shard.text bs => 1 ≤ bs.len ∧ bs.pos + bs.len ≤ data.length
  | Shard.hashtag bs =>
      1 ≤ bs.len ∧ bs.pos + bs.len ≤ data.length ∧ 1 ≤ bs.pos ∧
      data.get? (bs.pos - 1) = some 35 ∧
      (bs.pos = 1 ∨ ∃ b, data.get? (bs.pos - 2) = some b ∧ is_left_boundary_char b = true)
  | Shard.mention (Mention.index _) => True
  | Shard.mention (Mention.bech32 _) => False
  | Shard.url _ => False

/-- Characterization of the forward scan: it never moves backwards, stays in
bounds, every byte it skipped fails the predicate, and it either stops on a
byte satisfying the predicate with success or at the end of the buffer with
an OutOfBounds(End) report. -/
theorem scan_go_spec (data : List Nat) (pred : Nat → Bool) :
    ∀ fuel pos stop res, data.length - pos < fuel →
      scan_go data pred pos fuel = (stop, res) →
      pos ≤ stop ∧ (pos ≤ data.length → stop ≤ data.length) ∧
      (∀ j, pos ≤ j → j < stop → ∃ b, data.get? j = some b ∧ pred b = false) ∧
      (((∃ b, data.get? stop = some b ∧ pred b = true) ∧ res = Except.ok ()) ∨
        (data.get? stop = none ∧ res = Except.error (Err.outOfBounds Bound.atEnd))) := by
  intro fuel
  induction fuel with
  | zero => intro pos stop res hfuel _; omega
  | succ fuel ih =>
    intro pos stop res hfuel heq
    rw [scan_go] at heq
    split at heq
    next hget =>
      obtain ⟨h1, h2⟩ := Prod.mk.injEq .. ▸ heq
      subst h1; subst h2
      exact ⟨Nat.le_refl _, fun h => h, fun j hj1 hj2 => absurd (Nat.lt_of_le_of_lt hj1 hj2) (Nat.lt_irrefl _),
        Or.inr ⟨hget, rfl⟩⟩
    next b hget =>
      split at heq
      next hpred =>
        obtain ⟨h1, h2⟩ := Prod.mk.injEq .. ▸ heq
        subst h1; subst h2
        exact ⟨Nat.le_refl _, fun h => h, fun j hj1 hj2 => absurd (Nat.lt_of_le_of_lt hj1 hj2) (Nat.lt_irrefl _),
          Or.inl ⟨⟨b, hget, hpred⟩, rfl⟩⟩
      next hpred =>
        have hposlt : pos < data.length := (List.get?_eq_some.mp hget).1
        obtain ⟨i1, i2, i3, i4⟩ := ih (pos + 1) stop res (by omega) heq
        refine ⟨by omega, fun _ => i2 (by omega), fun j hj1 hj2 => ?_, i4⟩
        rcases Nat.eq_or_lt_of_le hj1 with hj | hj
        · exact ⟨b, hj ▸ hget, Bool.of_not_eq_true hpred⟩
        · exact i3 j hj hj2

/-- Characterization of the digit-consuming loop: it never moves backwards,
stays in bounds, every consumed byte is an ASCII digit, and the byte at the
stopping position (if any) is not a digit. -/
theorem digits_go_spec (data : List Nat) :
    ∀ fuel pos acc stop v, data.length - pos < fuel →
      digits_go data pos acc fuel = (stop, v) →
      pos ≤ stop ∧ (pos ≤ data.length → stop ≤ data.length) ∧
      (∀ j, pos ≤ j → j < stop → ∃ b, data.get? j = some b ∧ is_ascii_digit b = true) ∧
      (∀ b, data.get? stop = some b → is_ascii_digit b = false) := by
  intro fuel
  induction fuel with
  | zero => intro pos acc stop v hfuel _; omega
  | succ fuel ih =>
    intro pos acc stop v hfuel heq
    rw [digits_go] at heq
    split at heq
    next b hget =>
      split at heq
      next hdig =>
        have hposlt : pos < data.length := (List.get?_eq_some.mp hget).1
        obtain ⟨i1, i2, i3, i4⟩ := ih (pos + 1) ((acc * 10 + (b - 48)) % 65536) stop v (by omega) heq
        refine ⟨by omega, fun _ => i2 (by omega), fun j hj1 hj2 => ?_, i4⟩
        rcases Nat.eq_or_lt_of_le hj1 with hj | hj
        · exact ⟨b, hj ▸ hget, hdig⟩
        · exact i3 j hj hj2
      next hdig =>
        obtain ⟨h1, h2⟩ := Prod.mk.injEq .. ▸ heq
        subst h1
        refine ⟨Nat.le_refl _, fun h => h, fun j hj1 hj2 => absurd (Nat.lt_of_le_of_lt hj1 hj2) (Nat.lt_irrefl _),
          fun b' hb' => ?_⟩
        rw [hget] at hb'
        cases hb'
        exact Bool.of_not_eq_true hdig
    next hget =>
      obtain ⟨h1, h2⟩ := Prod.mk.injEq .. ▸ heq
      subst h1
      refine ⟨Nat.le_refl _, fun h => h, fun j hj1 hj2 => absurd (Nat.lt_of_le_of_lt hj1 hj2) (Nat.lt_irrefl _),
        fun b hb => ?_⟩
      rw [hget] at hb; cases hb

/-- A true left-boundary test at a position inside the buffer means the
position is 0 or the preceding byte is a left-boundary char. -/
theorem is_left_boundary_peek (data : List Nat) (pos : Nat) (hlt : pos < data.length)
    (h : is_left_boundary (Parser.peek_prev_byte ⟨data, pos⟩) = true) :
    pos = 0 ∨ ∃ b, data.get? (pos - 1) = some b ∧ is_left_boundary_char b = true := by
  by_cases h0 : pos = 0
  · exact Or.inl h0
  · right
    have hlt' : pos - 1 < data.length := by omega
    refine ⟨data.get ⟨pos - 1, hlt'⟩, List.get?_eq_get hlt', ?_⟩
    rw [Parser.peek_prev_byte] at h
    simp only [h0, if_false] at h
    rw [List.get?_eq_get hlt'] at h
    exact h

/-- Exact behavior of match_char at any cursor state. -/
theorem parse_char_spec (data : List Nat) (q c : Nat) :
    (data.get? q = some c ∧ Parser.parse_char ⟨data, q⟩ c = (⟨data, q + 1⟩, Except.ok ())) ∨
    (data.get? q ≠ some c ∧ Parser.parse_char ⟨data, q⟩ c = (⟨data, q⟩, Except.error Err.notFound)) := by
  cases hget : data.get? q with
  | none =>
    refine Or.inr ⟨by simp, ?_⟩
    unfold Parser.parse_char
    rw [hget]
  | some b =>
    by_cases hbc : b = c
    · refine Or.inl ⟨by rw [hbc], ?_⟩
      unfold Parser.parse_char
      rw [hget]
      simp [hbc]
    · refine Or.inr ⟨by simp [hbc], ?_⟩
      unfold Parser.parse_char
      rw [hget]
      simp [hbc]

/-- Exact behavior of parse_ascii_digits at any cursor state: either the byte
under the cursor is a digit and a maximal nonempty digit run is consumed, or
the call fails leaving the cursor unchanged. -/
theorem parse_digits_spec (data : List Nat) (q : Nat) :
    (∃ stop v, Parser.parse_digits ⟨data, q⟩ = (⟨data, stop⟩, Except.ok v) ∧
       q < stop ∧ (q ≤ data.length → stop ≤ data.length) ∧
       (∀ j, q ≤ j → j < stop → ∃ b, data.get? j = some b ∧ is_ascii_digit b = true) ∧
       (∀ b, data.get? stop = some b → is_ascii_digit b = false)) ∨
    ((∀ b, data.get? q = some b → is_ascii_digit b = false) ∧
       Parser.parse_digits ⟨data, q⟩ = (⟨data, q⟩, Except.error Err.notFound)) := by
  cases hget : data.get? q with
  | none =>
    refine Or.inr ⟨fun b hb => Option.noConfusion hb, ?_⟩
    unfold Parser.parse_digits
    rw [hget]
  | some b =>
    cases hdig : is_ascii_digit b with
    | false =>
      refine Or.inr ⟨fun b' hb' => Option.some.inj hb' ▸ hdig, ?_⟩
      unfold Parser.parse_digits
      rw [hget]
      simp [hdig]
    | true =>
      left
      rcases hr : digits_go data q 0 (data.length + 1) with ⟨stop, v⟩
      obtain ⟨i1, i2, i3, i4⟩ := digits_go_spec data (data.length + 1) q 0 stop v (by omega) hr
      refine ⟨stop, v, ?_, ?_, i2, i3, i4⟩
      · unfold Parser.parse_digits
        rw [hget]
        simp [hdig, hr]
      · rcases Nat.eq_or_lt_of_le i1 with h | h
        · exact absurd (i4 b (h ▸ hget)) (by rw [hdig]; simp)
        · exact h

/-- Exact behavior of the hashtag recognizer at any cursor state: the cursor
moves monotonically to a stopping position within bounds, every scanned byte
is a non-boundary byte, the stop is a boundary byte or the end of the buffer,
and the result is the scanned span on a nonempty scan and NotFound (with the
cursor back at the entry position) on an empty one. -/
theorem parse_hashtag_spec (data : List Nat) (q : Nat) :
    ∃ stop, (Shards.parse_hashtag ⟨data, q⟩).1 = ⟨data, stop⟩ ∧
      q ≤ stop ∧ (q ≤ data.length → stop ≤ data.length) ∧
      (∀ j, q ≤ j → j < stop → ∃ b, data.get? j = some b ∧ is_boundary_char b = false) ∧
      ((∃ b, data.get? stop = some b ∧ is_boundary_char b = true) ∨ data.get? stop = none) ∧
      ((q < stop ∧ (Shards.parse_hashtag ⟨data, q⟩).2 = Except.ok ⟨q, stop - q⟩) ∨
        (stop = q ∧ (Shards.parse_hashtag ⟨data, q⟩).2 = Except.error Err.notFound)) := by
  rcases hr : scan_go data is_boundary_char q (data.length + 1) with ⟨stop, res⟩
  obtain ⟨i1, i2, i3, i4⟩ := scan_go_spec data is_boundary_char (data.length + 1) q stop res (by omega) hr
  have heval : Shards.parse_hashtag ⟨data, q⟩ =
      (⟨data, stop⟩, if stop - q = 0 then Except.error Err.notFound else Except.ok ⟨q, stop - q⟩) := by
    unfold Shards.parse_hashtag Parser.parse_until
    rcases i4 with ⟨_, hres⟩ | ⟨_, hres⟩ <;> subst hres <;> simp [hr] <;> split <;> rfl
  refine ⟨stop, ?_, i1, i2, i3, ?_, ?_⟩
  · rw [heval]
  · rcases i4 with ⟨⟨b, hb, hpred⟩, _⟩ | ⟨hnone, _⟩
    · exact Or.inl ⟨b, hb, hpred⟩
    · exact Or.inr hnone
  · rw [heval]
    by_cases h0 : stop - q = 0
    · exact Or.inr ⟨by omega, by simp [h0]⟩
    · exact Or.inl ⟨by omega, by simp [h0]⟩

/-- Soundness of the indexed-mention recognizer: its final state keeps the
buffer; a success means a literal bracket, a nonempty digit run and a closing
bracket followed the entry position, with the cursor left right after the
closing bracket; any failure restores the cursor to the entry position. -/
theorem parse_indexed_mention_spec (data : List Nat) (q : Nat) :
    ((Shards.parse_indexed_mention ⟨data, q⟩).1).data = data ∧
    ((∃ n, (Shards.parse_indexed_mention ⟨data, q⟩).2 = Except.ok n) →
       ∃ k, 1 ≤ k ∧ data.get? q = some 91 ∧
         (∀ j, q + 1 ≤ j → j < q + 1 + k → ∃ b, data.get? j = some b ∧ is_ascii_digit b = true) ∧
         data.get? (q + 1 + k) = some 93 ∧
         ((Shards.parse_indexed_mention ⟨data, q⟩).1).pos = q + k + 2 ∧ q + k + 2 ≤ data.length) ∧
    ((∃ e, (Shards.parse_indexed_mention ⟨data, q⟩).2 = Except.error e) →
       (Shards.parse_indexed_mention ⟨data, q⟩).1 = ⟨data, q⟩) := by
  rcases parse_char_spec data q 91 with ⟨h91, hc1⟩ | ⟨h91, hc1⟩
  · rcases parse_digits_spec data (q + 1) with
      ⟨stop, v, hd, hlt, hbound, hdigits, hstopbyte⟩ | ⟨hdf, hd⟩
    · rcases parse_char_spec data stop 93 with ⟨h93, hc3⟩ | ⟨h93, hc3⟩
      · have heval : Shards.parse_indexed_mention ⟨data, q⟩ = (⟨data, stop + 1⟩, Except.ok v) := by
          unfold Shards.parse_indexed_mention
          simp [hc1, hd, hc3]
        have hstoplt : stop < data.length := (List.get?_eq_some.mp h93).1
        refine ⟨by rw [heval], fun _ => ?_, fun he => ?_⟩
        · refine ⟨stop - (q + 1), by omega, h91, ?_, ?_, ?_, by omega⟩
          · have hk : q + 1 + (stop - (q + 1)) = stop := by omega
            rw [hk]
            exact hdigits
          · have hk : q + 1 + (stop - (q + 1)) = stop := by omega
            rw [hk]
            exact h93
          · rw [heval]
            simp
            omega
        · rcases he with ⟨e, he⟩
          rw [heval] at he
          cases he
      · have heval : Shards.parse_indexed_mention ⟨data, q⟩ = (⟨data, q⟩, Except.error Err.notFound) := by
          unfold Shards.parse_indexed_mention
          simp [hc1, hd, hc3]
        refine ⟨by rw [heval], fun hn => ?_, fun _ => by rw [heval]⟩
        rcases hn with ⟨n, hn⟩
        rw [heval] at hn
        cases hn
    · have heval : Shards.parse_indexed_mention ⟨data, q⟩ = (⟨data, q⟩, Except.error Err.notFound) := by
        unfold Shards.parse_indexed_mention
        simp [hc1, hd]
      refine ⟨by rw [heval], fun hn => ?_, fun _ => by rw [heval]⟩
      rcases hn with ⟨n, hn⟩
      rw [heval] at hn
      cases hn
  · have heval : Shards.parse_indexed_mention ⟨data, q⟩ = (⟨data, q⟩, Except.error Err.notFound) := by
      unfold Shards.parse_indexed_mention
      simp [hc1]
    refine ⟨by rw [heval], fun hn => ?_, fun _ => by rw [heval]⟩
    rcases hn with ⟨n, hn⟩
    rw [heval] at hn
    cases hn

/-- Completeness of the indexed-mention recognizer: a literal bracket, any
nonempty digit run and a closing bracket right after the entry position make
it succeed, leaving the cursor right after the closing bracket. -/
theorem parse_indexed_mention_complete (data : List Nat) (q k : Nat)
    (h91 : data.get? q = some 91) (hk : 1 ≤ k)
    (hdig : ∀ j, q + 1 ≤ j → j < q + 1 + k → ∃ b, data.get? j = some b ∧ is_ascii_digit b = true)
    (h93 : data.get? (q + 1 + k) = some 93) :
    ∃ n, Shards.parse_indexed_mention ⟨data, q⟩ = (⟨data, q + k + 2⟩, Except.ok n) := by
  rcases parse_char_spec data q 91 with ⟨_, hc1⟩ | ⟨hne, _⟩
  · rcases parse_digits_spec data (q + 1) with
      ⟨stop, v, hd, hlt, hbound, hdigits, hstopbyte⟩ | ⟨hdf, hd⟩
    · have hstop : stop = q + 1 + k := by
        rcases Nat.lt_trichotomy stop (q + 1 + k) with h | h | h
        · obtain ⟨b, hb, hbdig⟩ := hdig stop (by omega) h
          rw [hstopbyte b hb] at hbdig
          cases hbdig
        · exact h
        · obtain ⟨b, hb, hbdig⟩ := hdigits (q + 1 + k) (by omega) h
          rw [h93] at hb
          cases hb
          cases hbdig
      subst hstop
      rcases parse_char_spec data (q + 1 + k) 93 with ⟨_, hc3⟩ | ⟨hne3, _⟩
      · refine ⟨v, ?_⟩
        have heval : Shards.parse_indexed_mention ⟨data, q⟩ = (⟨data, q + 1 + k + 1⟩, Except.ok v) := by
          unfold Shards.parse_indexed_mention
          simp [hc1, hd, hc3]
        rw [heval]
        have harith : q + 1 + k + 1 = q + k + 2 := by omega
        rw [harith]
      · exact absurd h93 hne3
    · obtain ⟨b, hb, hbdig⟩ := hdig (q + 1) (by omega) (by omega)
      rw [hdf b hb] at hbdig
      cases hbdig
  · exact absurd h91 hne

/-- Adjacent segments of a buffer concatenate. -/
theorem seg_append (data : List Nat) (a c b : Nat) (h1 : a ≤ c) (h2 : c ≤ b) :
    seg data a c ++ seg data c b = seg data a b := by
  unfold seg
  rw [List.drop_take, List.drop_take, List.drop_take]
  have hdrop : (data.drop a).drop (c - a) = data.drop c := by
    rw [List.drop_drop]
    congr 1
    omega
  rw [← hdrop, ← List.take_add]
  congr 1
  omega

/-- Appending one shard to a tiling extends it by the shard's extent. -/
theorem tiles_append (s : Shard) : ∀ (l : List Shard) (a b : Nat),
    tiles a l b = true → s.extent.1 = b → b ≤ s.extent.2 →
    tiles a (l ++ [s]) s.extent.2 = true := by
  intro l
  induction l with
  | nil =>
    intro a b ht h1 h2
    simp only [tiles, beq_iff_eq] at ht
    subst ht
    simp only [List.nil_append, tiles, Bool.and_eq_true, beq_iff_eq, decide_eq_true_eq]
    exact ⟨⟨h1, h2⟩, trivial⟩
  | cons hd tl ih =>
    intro a b ht h1 h2
    simp only [tiles, Bool.and_eq_true, beq_iff_eq, decide_eq_true_eq] at ht
    obtain ⟨⟨hh1, hh2⟩, hh3⟩ := ht
    simp only [List.cons_append, tiles, Bool.and_eq_true, beq_iff_eq, decide_eq_true_eq]
    exact ⟨⟨hh1, hh2⟩, ih _ _ hh3 h1 h2⟩

/-- Flushing the pending text run extends a tiling up to the flush position. -/
theorem tiles_push_txt (l : List Shard) (a start upto : Nat) (hle : start ≤ upto)
    (ht : tiles a l start = true) :
    tiles a (Shards.push_txt l start upto) upto = true := by
  unfold Shards.push_txt
  by_cases h0 : upto - start = 0
  · rw [if_pos h0]
    have heq : upto = start := by omega
    rw [heq]
    exact ht
  · rw [if_neg h0]
    have h2 : (Shard.text ⟨start, upto - start⟩).extent.2 = upto := by
      simp only [Shard.extent]
      omega
    have h1 : (Shard.text ⟨start, upto - start⟩).extent.1 = start := by
      simp only [Shard.extent]
    have happ := tiles_append (Shard.text ⟨start, upto - start⟩) l a start ht h1
      (by rw [h2]; exact hle)
    rw [h2] at happ
    exact happ

theorem mentionFree_append (l : List Shard) (s : Shard) :
    mentionFree (l ++ [s]) = (mentionFree l && ! s.isMention) := by
  simp [mentionFree, List.all_append]

theorem mentionFree_push_txt (l : List Shard) (start upto : Nat) :
    mentionFree (Shards.push_txt l start upto) = mentionFree l := by
  unfold Shards.push_txt
  split
  · rfl
  · rw [mentionFree_append]
    simp [Shard.isMention]

/-- Flushing the pending text run preserves the per-shard invariant. -/
theorem shardInv_push_txt (data : List Nat) (l : List Shard) (start upto : Nat)
    (hinv : ∀ s ∈ l, shardInv data s) (hle : start ≤ upto) (hup : upto ≤ data.length) :
    ∀ s ∈ Shards.push_txt l start upto, shardInv data s := by
  unfold Shards.push_txt
  by_cases h0 : upto - start = 0
  · rw [if_pos h0]
    exact hinv
  · rw [if_neg h0]
    intro s hs
    rcases List.mem_append.mp hs with h | h
    · exact hinv s h
    · rcases List.mem_singleton.mp h with rfl
      show 1 ≤ upto - start ∧ start + (upto - start) ≤ data.length
      omega

/-- ASCII letters and digits are not left-boundary bytes. -/
theorem alnum_not_left_boundary (b : Nat) (hb : is_alnum b = true) :
    is_left_boundary_char b = false := by
  have h : ∀ x, x < 123 → is_alnum x = true → is_left_boundary_char x = false := by decide
  have hb' := hb
  simp only [is_alnum, decide_eq_true_eq] at hb'
  exact h b (by omega) hb

/-- Master invariant of the parse loop: starting inside the buffer with the
pending-run start no later than the cursor, an accumulator of well-formed
shards tiling the buffer up to the pending-run start, the loop ends with the
cursor at the end of the buffer, the pending-run start no later than the
cursor, only well-formed shards, and (in the absence of mention shards) a
tiling of the buffer up to the final pending-run start. -/
theorem parse_loop_inv (data : List Nat) :
    ∀ fuel pos start shards outS outStart outPos,
      data.length - pos < fuel →
      start ≤ pos → pos ≤ data.length →
      (∀ s ∈ shards, shardInv data s) →
      (mentionFree shards = true → tiles 0 shards start = true) →
      Shards.parse_loop data pos start shards fuel = (outS, outStart, outPos) →
      outStart ≤ outPos ∧ outPos = data.length ∧
      (∀ s ∈ outS, shardInv data s) ∧
      (mentionFree outS = true → tiles 0 outS outStart = true) := by
  intro fuel
  induction fuel with
  | zero => intro pos start shards outS outStart outPos hfuel _ _ _ _ _; omega
  | succ fuel ih =>
    intro pos start shards outS outStart outPos hfuel hsp hpl hinv htl heq
    rw [Shards.parse_loop] at heq
    split at heq
    next hget =>
      simp only [Prod.mk.injEq] at heq
      obtain ⟨rfl, rfl, rfl⟩ := heq
      have hlen : data.length ≤ pos := List.get?_eq_none.mp hget
      exact ⟨hsp, by omega, hinv, htl⟩
    next c1 hget =>
      have hposlt : pos < data.length := (List.get?_eq_some.mp hget).1
      simp only at heq
      split at heq
      next hcond =>
        obtain ⟨hc35, hprevb⟩ := Bool.and_eq_true .. ▸ hcond
        have hc1 : c1 = 35 := by simpa using hc35
        subst hc1
        obtain ⟨stop, hp1, hqs, hsb, hscan, hstopby, hres⟩ := parse_hashtag_spec data (pos + 1)
        split at heq
        next ht hok =>
          rcases hres with ⟨hlt, hok2⟩ | ⟨hstq, herr2⟩
          · have hht : ht = ⟨pos + 1, stop - (pos + 1)⟩ := Except.ok.inj (hok.symm.trans hok2)
            subst hht
            simp only [hp1] at heq
            have hstople : stop ≤ data.length := hsb (by omega)
            refine ih stop stop _ outS outStart outPos (by omega) (Nat.le_refl _) hstople ?_ ?_ heq
            · intro s hs
              rcases List.mem_append.mp hs with h | h
              · exact shardInv_push_txt data shards start pos hinv hsp (by omega) s h
              · rcases List.mem_singleton.mp h with rfl
                show 1 ≤ stop - (pos + 1) ∧ (pos + 1) + (stop - (pos + 1)) ≤ data.length ∧
                  1 ≤ pos + 1 ∧ data.get? (pos + 1 - 1) = some 35 ∧
                  (pos + 1 = 1 ∨ ∃ b, data.get? (pos + 1 - 2) = some b ∧ is_left_boundary_char b = true)
                refine ⟨by omega, by omega, by omega, ?_, ?_⟩
                · have h11 : pos + 1 - 1 = pos := by omega
                  rw [h11]
                  exact hget
                · rcases is_left_boundary_peek data pos hposlt hprevb with h0 | ⟨b, hb, hlb⟩
                  · exact Or.inl (by omega)
                  · refine Or.inr ⟨b, ?_, hlb⟩
                    have h12 : pos + 1 - 2 = pos - 1 := by omega
                    rw [h12]
                    exact hb
            · intro hmf
              rw [mentionFree_append, mentionFree_push_txt] at hmf
              have hmfs : mentionFree shards = true := by
                simp [Shard.isMention] at hmf
                exact hmf
              have ht1 := tiles_push_txt shards 0 start pos hsp (htl hmfs)
              have hext1 : (Shard.hashtag ⟨pos + 1, stop - (pos + 1)⟩).extent.1 = pos := by
                simp only [Shard.extent]
                omega
              have hext2 : (Shard.hashtag ⟨pos + 1, stop - (pos + 1)⟩).extent.2 = stop := by
                simp only [Shard.extent]
                omega
              have happ := tiles_append (Shard.hashtag ⟨pos + 1, stop - (pos + 1)⟩)
                (Shards.push_txt shards start pos) 0 pos ht1 hext1 (by rw [hext2]; omega)
              rw [hext2] at happ
              exact happ
          · rw [herr2] at hok
            cases hok
        next e herr =>
          rcases hres with ⟨hlt, hok2⟩ | ⟨hstq, herr2⟩
          · rw [hok2] at herr
            cases herr
          · subst hstq
            simp only [hp1] at heq
            obtain ⟨hmdata, hmsucc, hmfail⟩ := parse_indexed_mention_spec data (pos + 1)
            split at heq
            next ind hmok =>
              obtain ⟨k, hk1, h91, hdigs, h93, hmpos, hmbound⟩ := hmsucc ⟨ind, hmok⟩
              have hrm1 : (Shards.parse_indexed_mention ⟨data, pos + 1⟩).1 =
                  ⟨data, pos + 1 + k + 2⟩ := by
                rcases hc : (Shards.parse_indexed_mention ⟨data, pos + 1⟩).1 with ⟨d', p'⟩
                rw [hc] at hmdata hmpos
                simp only at hmdata hmpos
                rw [hmdata, hmpos]
              simp only [hrm1] at heq
              refine ih (pos + 1 + k + 2) (pos + 1 + k + 2) _ outS outStart outPos
                (by omega) (Nat.le_refl _) (by omega) ?_ ?_ heq
              · intro s hs
                rcases List.mem_append.mp hs with h | h
                · exact shardInv_push_txt data shards start pos hinv hsp (by omega) s h
                · rcases List.mem_singleton.mp h with rfl
                  trivial
              · intro hmf
                rw [mentionFree_append] at hmf
                simp [Shard.isMention] at hmf
            next e' hmerr =>
              have hrm1 := hmfail ⟨e', hmerr⟩
              simp only [hrm1] at heq
              exact ih (pos + 1) start shards outS outStart outPos (by omega) (by omega)
                (by omega) hinv htl heq
      next hcond =>
        exact ih (pos + 1) start shards outS outStart outPos (by omega) (by omega)
          (by omega) hinv htl heq

/-- Soundness package for parse: every emitted shard satisfies the structural
invariant, and mention-free outputs tile the whole buffer. -/
theorem parse_core (data : List Nat) (out : List Shard)
    (h : Shards.parse data = Except.ok out) :
    (∀ s ∈ out, shardInv data s) ∧
    (mentionFree out = true → tiles 0 out data.length = true) := by
  rcases hr : Shards.parse_loop data 0 0 [] (data.length + 1) with ⟨outS, outStart, outPos⟩
  obtain ⟨l1, l2, l3, l4⟩ := parse_loop_inv data (data.length + 1) 0 0 [] outS outStart outPos
    (by omega) (Nat.le_refl 0) (Nat.zero_le _) (by intro s hs; cases hs) (fun _ => rfl) hr
  have hout : out = Shards.push_txt outS outStart outPos := by
    simp only [Shards.parse, hr, Except.ok.injEq] at h
    exact h.symm
  subst hout
  constructor
  · exact shardInv_push_txt data outS outStart outPos l3 l1 (by omega)
  · intro hmf
    rw [mentionFree_push_txt] at hmf
    have hti := tiles_push_txt outS 0 outStart outPos l1 (l4 hmf)
    rw [l2] at hti ⊢
    exact hti

/-- The extent bytes of a tiling reassemble the tiled segment. -/
theorem tiles_bytes (data : List Nat) :
    ∀ (l : List Shard) (a b : Nat), tiles a l b = true →
      a ≤ b ∧ (l.map (fun s => Shard.extentBytes s data)).flatten = seg data a b := by
  intro l
  induction l with
  | nil =>
    intro a b ht
    simp only [tiles, beq_iff_eq] at ht
    subst ht
    refine ⟨Nat.le_refl _, ?_⟩
    simp only [List.map_nil, List.flatten_nil]
    unfold seg
    rw [List.drop_take]
    simp
  | cons hd tl ih =>
    intro a b ht
    simp only [tiles, Bool.and_eq_true, beq_iff_eq, decide_eq_true_eq] at ht
    obtain ⟨⟨h1, h2⟩, h3⟩ := ht
    obtain ⟨hab, hjoin⟩ := ih hd.extent.2 b h3
    refine ⟨by omega, ?_⟩
    simp only [List.map_cons, List.flatten_cons]
    rw [hjoin]
    unfold Shard.extentBytes
    rw [h1]
    exact seg_append data a hd.extent.2 b h2 hab

/-- C1, claim as stated, is false on the code: parsing the two-byte input
"#a" yields the single shard Hashtag(1,1), whose span resolves to just "a";
concatenating the bytes referenced by the shards' spans does not reproduce
the input (the '#' sigil byte is referenced by no span). -/
theorem claim_C1_counterexample :
    Shards.parse [35, 97] = Except.ok [Shard.hashtag ⟨1, 1⟩] ∧
    ([Shard.hashtag ⟨1, 1⟩].map (fun s => Shard.spanBytes s [35, 97])).flatten ≠ [35, 97] := by
  decide

/-- C1 (amended): for every input whose parse output contains no Mention
shard, the shard extents — a Text span as is, a Hashtag span extended one
byte to the left to cover its consumed '#' sigil — tile the input exactly:
each shard's extent ends exactly where the next begins, the first starts at
position 0 and the last ends at the input length, and concatenating the
extent bytes in sequence order reproduces the original input byte-for-byte. -/
theorem claim_C1_amended (data : List Nat) (out : List Shard)
    (hout : Shards.parse data = Except.ok out)
    (hfree : mentionFree out = true) :
    tiles 0 out data.length = true ∧
    (out.map (fun s => Shard.extentBytes s data)).flatten = data := by
  have hcore := (parse_core data out hout).2 hfree
  refine ⟨hcore, ?_⟩
  obtain ⟨_, hj⟩ := tiles_bytes data out 0 data.length hcore
  rw [hj]
  unfold seg
  rw [List.take_length, List.drop_zero]

/-- Witness for C1 (amended) at the concrete input ".#ab". -/
theorem claim_C1_witness :
    Shards.parse [46, 35, 97, 98] = Except.ok [Shard.text ⟨0, 1⟩, Shard.hashtag ⟨2, 2⟩] ∧
    mentionFree [Shard.text ⟨0, 1⟩, Shard.hashtag ⟨2, 2⟩] = true ∧
    (tiles 0 [Shard.text ⟨0, 1⟩, Shard.hashtag ⟨2, 2⟩] (([46, 35, 97, 98] : List Nat).length) = true ∧
      ([Shard.text ⟨0, 1⟩, Shard.hashtag ⟨2, 2⟩].map
        (fun s => Shard.extentBytes s [46, 35, 97, 98])).flatten = [46, 35, 97, 98]) :=
  ⟨by decide, by decide,
    claim_C1_amended [46, 35, 97, 98] [Shard.text ⟨0, 1⟩, Shard.hashtag ⟨2, 2⟩] (by decide) (by decide)⟩

/-- C2: parse returns a successful result on every input; no cursor-level
error ever escapes to the caller. -/
theorem claim_C2 (content : List Nat) :
    (∃ out, Shards.parse content = Except.ok out) ∧
    ∀ e, Shards.parse content ≠ Except.error e := by
  refine ⟨⟨_, rfl⟩, fun e he => ?_⟩
  simp only [Shards.parse] at he
  cases he

/-- C3, claim as stated, is false on the code: for the input "#a" the output
is the single shard Hashtag(1,1); the text reconstructed from its span is
"a", and re-running parse on it yields a Text shard, not the same output. -/
theorem claim_C3_counterexample :
    Shards.parse [35, 97] = Except.ok [Shard.hashtag ⟨1, 1⟩] ∧
    ([Shard.hashtag ⟨1, 1⟩].map (fun s => Shard.spanBytes s [35, 97])).flatten = [97] ∧
    Shards.parse [97] ≠ Except.ok [Shard.hashtag ⟨1, 1⟩] := by
  decide

/-- C3 (amended): for every input whose parse output contains no Mention
shard, re-running parse on the text reconstructed by concatenating the
shards' extent bytes (hashtag spans extended to include their '#' sigil)
yields the identical shard sequence. -/
theorem claim_C3_amended (data : List Nat) (out : List Shard)
    (hout : Shards.parse data = Except.ok out)
    (hfree : mentionFree out = true) :
    Shards.parse ((out.map (fun s => Shard.extentBytes s data)).flatten) = Except.ok out := by
  have hcore := (parse_core data out hout).2 hfree
  obtain ⟨_, hj⟩ := tiles_bytes data out 0 data.length hcore
  rw [hj]
  have hseg : seg data 0 data.length = data := by
    unfold seg
    rw [List.take_length, List.drop_zero]
  rw [hseg]
  exact hout

/-- Witness for C3 (amended) at the concrete input ".#ab". -/
theorem claim_C3_witness :
    Shards.parse [46, 35, 97, 98] = Except.ok [Shard.text ⟨0, 1⟩, Shard.hashtag ⟨2, 2⟩] ∧
    mentionFree [Shard.text ⟨0, 1⟩, Shard.hashtag ⟨2, 2⟩] = true ∧
    Shards.parse (([Shard.text ⟨0, 1⟩, Shard.hashtag ⟨2, 2⟩].map
        (fun s => Shard.extentBytes s [46, 35, 97, 98])).flatten) =
      Except.ok [Shard.text ⟨0, 1⟩, Shard.hashtag ⟨2, 2⟩] :=
  ⟨by decide, by decide,
    claim_C3_amended [46, 35, 97, 98] [Shard.text ⟨0, 1⟩, Shard.hashtag ⟨2, 2⟩] (by decide) (by decide)⟩

/-- C4: a '#' byte whose immediately preceding byte is an ASCII letter or
digit never starts a Hashtag or Mention shard: no Hashtag shard's body starts
right after such a '#', and the scanning loop treats that '#' exactly like an
ordinary byte of the pending text run, advancing one position without
attempting any recognizer. -/
theorem claim_C4 (data : List Nat) (out : List Shard) (i b start : Nat)
    (shards : List Shard) (fuel : Nat)
    (hout : Shards.parse data = Except.ok out)
    (hhash : data.get? (i + 1) = some 35)
    (hprev : data.get? i = some b)
    (halnum : is_alnum b = true) :
    (∀ bs : ByteSlice, Shard.hashtag bs ∈ out → bs.pos ≠ i + 2) ∧
    Shards.parse_loop data (i + 1) start shards (fuel + 1) =
      Shards.parse_loop data (i + 2) start shards fuel := by
  constructor
  · intro bs hmem hpos
    have hinv := (parse_core data out hout).1 _ hmem
    obtain ⟨_, _, hp1, h35, hbd⟩ := hinv
    rcases hbd with h1 | ⟨b', hb', hlb⟩
    · omega
    · rw [hpos] at hb'
      have h2 : i + 2 - 2 = i := by omega
      rw [h2, hprev] at hb'
      obtain rfl := Option.some.inj hb'
      rw [alnum_not_left_boundary b halnum] at hlb
      cases hlb
  · have hlbf : is_left_boundary (Parser.peek_prev_byte ⟨data, i + 1⟩) = false := by
      unfold Parser.peek_prev_byte
      have hne : ¬((⟨data, i + 1⟩ : Parser).pos = 0) := by simp
      rw [if_neg hne]
      show is_left_boundary_char ((data.get? (i + 1 - 1)).getD 0) = false
      have h1 : i + 1 - 1 = i := by omega
      rw [h1, hprev]
      exact alnum_not_left_boundary b halnum
    rw [Shards.parse_loop, hhash]
    simp only [hlbf, Bool.and_false]
    rfl

/-- Witness for C4 at the concrete input "aa#b". -/
theorem claim_C4_witness :
    Shards.parse [97, 97, 35, 98] = Except.ok [Shard.text ⟨0, 4⟩] ∧
    ([97, 97, 35, 98] : List Nat).get? 2 = some 35 ∧
    ([97, 97, 35, 98] : List Nat).get? 1 = some 97 ∧
    is_alnum 97 = true ∧
    ((∀ bs : ByteSlice, Shard.hashtag bs ∈ [Shard.text ⟨0, 4⟩] → bs.pos ≠ 3) ∧
      Shards.parse_loop [97, 97, 35, 98] 2 0 [] 6 = Shards.parse_loop [97, 97, 35, 98] 3 0 [] 5) :=
  ⟨by decide, by decide, by decide, by decide,
    claim_C4 [97, 97, 35, 98] [Shard.text ⟨0, 4⟩] 1 97 0 [] 5
      (by decide) (by decide) (by decide) (by decide)⟩

/-- C5: from any in-bounds position just after a '#', the hashtag recognizer
scans to a stopping position, skipping only bytes that are neither ASCII
whitespace nor ASCII punctuation (in particular bytes with the high bit set
never terminate the body); it stops at the first boundary byte or at the end
of the buffer, both successfully; a nonempty scan returns the span from the
entry position to the stop, and an empty one fails with NotFound. -/
theorem claim_C5 (data : List Nat) (q : Nat) (hq : q ≤ data.length) :
    ∃ stop, (Shards.parse_hashtag ⟨data, q⟩).1 = ⟨data, stop⟩ ∧
      q ≤ stop ∧ stop ≤ data.length ∧
      (∀ j, q ≤ j → j < stop → ∃ b, data.get? j = some b ∧ is_boundary_char b = false) ∧
      ((∃ b, data.get? stop = some b ∧ is_boundary_char b = true) ∨ stop = data.length) ∧
      (∀ b, is_boundary_char b = true ↔ (is_ascii_whitespace b = true ∨ is_ascii_punctuation b = true)) ∧
      (∀ b, 128 ≤ b → b < 256 → is_boundary_char b = false) ∧
      (q < stop → (Shards.parse_hashtag ⟨data, q⟩).2 = Except.ok ⟨q, stop - q⟩) ∧
      (stop = q → (Shards.parse_hashtag ⟨data, q⟩).2 = Except.error Err.notFound) := by
  obtain ⟨stop, hp1, hqs, hsb, hscan, hstopby, hres⟩ := parse_hashtag_spec data q
  have hstople : stop ≤ data.length := hsb hq
  refine ⟨stop, hp1, hqs, hstople, hscan, ?_, ?_, ?_, ?_, ?_⟩
  · rcases hstopby with ⟨b, hb, hbd⟩ | hnone
    · exact Or.inl ⟨b, hb, hbd⟩
    · have := List.get?_eq_none.mp hnone
      exact Or.inr (by omega)
  · intro b
    simp [is_boundary_char]
  · intro b h128 _
    simp only [is_boundary_char, is_ascii_whitespace, is_ascii_punctuation,
      Bool.or_eq_false_iff, decide_eq_false_iff_not]
    exact ⟨by omega, by omega⟩
  · intro hlt
    rcases hres with ⟨_, hok⟩ | ⟨hsq, _⟩
    · exact hok
    · omega
  · intro hsq
    rcases hres with ⟨hlt, _⟩ | ⟨_, herr⟩
    · omega
    · exact herr

/-- Witness for C5 at the concrete buffer "a." and entry position 0. -/
theorem claim_C5_witness :
    (0 ≤ ([97, 46] : List Nat).length) ∧
    (∃ stop, (Shards.parse_hashtag ⟨[97, 46], 0⟩).1 = ⟨[97, 46], stop⟩ ∧
      0 ≤ stop ∧ stop ≤ ([97, 46] : List Nat).length ∧
      (∀ j, 0 ≤ j → j < stop → ∃ b, ([97, 46] : List Nat).get? j = some b ∧ is_boundary_char b = false) ∧
      ((∃ b, ([97, 46] : List Nat).get? stop = some b ∧ is_boundary_char b = true) ∨
        stop = ([97, 46] : List Nat).length) ∧
      (∀ b, is_boundary_char b = true ↔ (is_ascii_whitespace b = true ∨ is_ascii_punctuation b = true)) ∧
      (∀ b, 128 ≤ b → b < 256 → is_boundary_char b = false) ∧
      (0 < stop → (Shards.parse_hashtag ⟨[97, 46], 0⟩).2 = Except.ok ⟨0, stop - 0⟩) ∧
      (stop = 0 → (Shards.parse_hashtag ⟨[97, 46], 0⟩).2 = Except.error Err.notFound)) :=
  ⟨by decide, claim_C5 [97, 46] 0 (by decide)⟩

/-- C6: the indexed-mention recognizer succeeds exactly on a literal '[',
one or more ASCII digits and ']' starting at its entry position (the position
right after the '#'); on any failure it leaves the cursor at the entry
position; at a recognition point the loop consults it only after the hashtag
recognizer: a hashtag success decides the step by itself, and when both
recognizers fail the loop continues one byte further with the '#' left to the
pending text run. -/
theorem claim_C6 (data : List Nat) (q pos start : Nat) (shards : List Shard) (fuel : Nat) :
    ((∃ n, (Shards.parse_indexed_mention ⟨data, q⟩).2 = Except.ok n) ↔
      (data.get? q = some 91 ∧ ∃ k, 1 ≤ k ∧
        (∀ j, q + 1 ≤ j → j < q + 1 + k → ∃ b, data.get? j = some b ∧ is_ascii_digit b = true) ∧
        data.get? (q + 1 + k) = some 93)) ∧
    ((∃ e, (Shards.parse_indexed_mention ⟨data, q⟩).2 = Except.error e) →
      (Shards.parse_indexed_mention ⟨data, q⟩).1 = ⟨data, q⟩) ∧
    (∀ c1 ht, data.get? pos = some c1 →
      (c1 == 35 && is_left_boundary (Parser.peek_prev_byte ⟨data, pos⟩)) = true →
      (Shards.parse_hashtag ⟨data, pos + 1⟩).2 = Except.ok ht →
      Shards.parse_loop data pos start shards (fuel + 1) =
        Shards.parse_loop data (Shards.parse_hashtag ⟨data, pos + 1⟩).1.pos
          (Shards.parse_hashtag ⟨data, pos + 1⟩).1.pos
          (Shards.push_txt shards start pos ++ [Shard.hashtag ht]) fuel) ∧
    (∀ c1 e1 e2, data.get? pos = some c1 →
      (c1 == 35 && is_left_boundary (Parser.peek_prev_byte ⟨data, pos⟩)) = true →
      (Shards.parse_hashtag ⟨data, pos + 1⟩).2 = Except.error e1 →
      (Shards.parse_indexed_mention ⟨data, pos + 1⟩).2 = Except.error e2 →
      Shards.parse_loop data pos start shards (fuel + 1) =
        Shards.parse_loop data (pos + 1) start shards fuel) := by
  obtain ⟨hmdata, hmsucc, hmfail⟩ := parse_indexed_mention_spec data q
  refine ⟨⟨?_, ?_⟩, hmfail, ?_, ?_⟩
  · intro hok
    obtain ⟨k, hk1, h91, hdigs, h93, _, _⟩ := hmsucc hok
    exact ⟨h91, k, hk1, hdigs, h93⟩
  · rintro ⟨h91, k, hk1, hdigs, h93⟩
    obtain ⟨n, hn⟩ := parse_indexed_mention_complete data q k h91 hk1 hdigs h93
    exact ⟨n, by rw [hn]⟩
  · intro c1 ht hget hcond hok
    rw [Shards.parse_loop, hget]
    simp only [hcond]
    rw [hok]
    rfl
  · intro c1 e1 e2 hget hcond herr hmerr2
    obtain ⟨stop, hp1, hqs, hsb, hscan, hstopby, hres⟩ := parse_hashtag_spec data (pos + 1)
    rcases hres with ⟨hlt, hok2⟩ | ⟨hstq, herr2⟩
    · rw [hok2] at herr
      cases herr
    · subst hstq
      obtain ⟨hmdata2, hmsucc2, hmfail2⟩ := parse_indexed_mention_spec data (pos + 1)
      have hrm1 := hmfail2 ⟨e2, hmerr2⟩
      rw [Shards.parse_loop, hget]
      simp only [hcond]
      rw [herr, hp1, hmerr2, hrm1]
      rfl

/-- C7: for every byte, the left-boundary predicate holds exactly when the
byte is ASCII whitespace, ASCII punctuation, or has its high bit set; and a
missing previous byte (cursor at the start of the buffer) counts as a
boundary. -/
theorem claim_C7 (b : Nat) (hb : b < 256) :
    (is_left_boundary_char b = true ↔ left_boundary_spec b) ∧
    (∀ data : List Nat, is_left_boundary (Parser.peek_prev_byte ⟨data, 0⟩) = true) := by
  constructor
  · have h : ∀ x, x < 256 → (is_left_boundary_char x = true ↔ left_boundary_spec x) := by
      set_option maxRecDepth 8192 in decide
    exact h b hb
  · intro data
    rfl

/-- Witness for C7 at the concrete byte 200 (high bit set). -/
theorem claim_C7_witness :
    (200 < 256) ∧
    ((is_left_boundary_char 200 = true ↔ left_boundary_spec 200) ∧
      (∀ data : List Nat, is_left_boundary (Parser.peek_prev_byte ⟨data, 0⟩) = true)) :=
  ⟨by decide, claim_C7 200 (by decide)⟩

/-- C8: no Text shard in a parse output has zero length. -/
theorem claim_C8 (data : List Nat) (out : List Shard)
    (hout : Shards.parse data = Except.ok out) :
    ∀ bs : ByteSlice, Shard.text bs ∈ out → bs.len ≠ 0 := by
  intro bs hmem
  have hinv := (parse_core data out hout).1 _ hmem
  obtain ⟨h1, _⟩ := hinv
  omega

/-- Witness for C8 at the concrete input ".#ab". -/
theorem claim_C8_witness :
    Shards.parse [46, 35, 97, 98] = Except.ok [Shard.text ⟨0, 1⟩, Shard.hashtag ⟨2, 2⟩] ∧
    (∀ bs : ByteSlice, Shard.text bs ∈ [Shard.text ⟨0, 1⟩, Shard.hashtag ⟨2, 2⟩] → bs.len ≠ 0) :=
  ⟨by decide, claim_C8 [46, 35, 97, 98] [Shard.text ⟨0, 1⟩, Shard.hashtag ⟨2, 2⟩] (by decide)⟩

/-- C9: every ByteSlice contained in a parse output stays within the bounds
of the input buffer. -/
theorem claim_C9 (data : List Nat) (out : List Shard)
    (hout : Shards.parse data = Except.ok out) :
    ∀ s ∈ out, ∀ bs ∈ s.slices, bs.pos + bs.len ≤ data.length := by
  intro s hs bs hbs
  have hinv := (parse_core data out hout).1 s hs
  cases s with
  | text bs' =>
    obtain ⟨_, h2⟩ := hinv
    rcases List.mem_singleton.mp hbs with rfl
    exact h2
  | hashtag bs' =>
    obtain ⟨_, h2, _⟩ := hinv
    rcases List.mem_singleton.mp hbs with rfl
    exact h2
  | url bs' => exact hinv.elim
  | mention m =>
    cases m with
    | index n => cases hbs
    | bech32 bs' => exact hinv.elim

/-- Witness for C9 at the concrete input "a #[12]". -/
theorem claim_C9_witness :
    Shards.parse [97, 32, 35, 91, 49, 50, 93] =
      Except.ok [Shard.text ⟨0, 2⟩, Shard.mention (Mention.index 12)] ∧
    (∀ s ∈ [Shard.text ⟨0, 2⟩, Shard.mention (Mention.index 12)],
      ∀ bs ∈ Shard.slices s, bs.pos + bs.len ≤ ([97, 32, 35, 91, 49, 50, 93] : List Nat).length) :=
  ⟨by decide,
    claim_C9 [97, 32, 35, 91, 49, 50, 93] [Shard.text ⟨0, 2⟩, Shard.mention (Mention.index 12)] (by decide)⟩

/-- C10: parsing the empty input succeeds with an empty shard sequence. -/
theorem claim_C10 : Shards.parse [] = Except.ok ([] : List Shard) := by
  decide

end Shatter
